import Mathlib

/-
Verification of the fixed-universe bit-vector set container
(`BitSet<TElement, TToken>` from src/src/BitSet.h).

Machine words of the storage are modelled as natural numbers below
2 ^ w, where `w` stands for `ElementsPerToken` (the number of bits per
storage token, `sizeof(TToken) * 8` in the source).  The bit-manipulation
collaborator (`BitUtil`, included from headers that are not part of this
repository snapshot) is modelled from the contract the specification
states for it.
-/

namespace FastHopcroft

/-- Modelled from the spec: the collaborator primitive
`TestBit(word, pos) → bool` tests bit `pos` of a raw word. -/
def TestBit (word pos : Nat) : Bool :=
  Nat.testBit word pos

/-- Modelled from the spec: the collaborator primitive `SetBit(word*, pos)`
sets bit `pos` of a raw word. -/
def SetBit (word pos : Nat) : Nat :=
  word ||| 2 ^ pos

/-- Modelled from the spec: the collaborator primitive `ClearBit(word*, pos)`
clears bit `pos` of a raw word.  When the bit is set, removing it is an
exclusive-or with that bit; otherwise the word is unchanged. -/
def ClearBit (word pos : Nat) : Nat :=
  if Nat.testBit word pos then word ^^^ 2 ^ pos else word

/-- Modelled from the spec: `ClearAllBits(wordArray, count)` zeroes `count`
words of the array. -/
def ClearAllBits (count : Nat) : List Nat :=
  List.replicate count 0

/-- Modelled from the spec: `OrVector(dst, a, b, count)` writes
`a[i] | b[i]` to `dst[i]` for every `i < count`. -/
def OrVector (a b : List Nat) (count : Nat) : List Nat :=
  (List.range count).map fun i => a.getD i 0 ||| b.getD i 0

/-- Modelled from the spec: `AndVector(dst, a, b, count)` writes
`a[i] & b[i]` to `dst[i]` for every `i < count`. -/
def AndVector (a b : List Nat) (count : Nat) : List Nat :=
  (List.range count).map fun i => a.getD i 0 &&& b.getD i 0

/-- Index of the lowest set bit of `n`, computed by shifting right until an
odd number appears.  The first argument is fuel; `n` itself is always
enough fuel because the scan needs at most `log2 n + 1` steps. -/
def lowestSetBitAux : Nat → Nat → Nat
  | 0, _ => 0
  | fuel + 1, n => if n % 2 = 1 then 0 else 1 + lowestSetBitAux fuel (n / 2)

/-- Modelled from the spec: `FindLowestSetBit(word)` (called
`BitScanForward` at the use site) locates the lowest-order set bit, or
reports that none is found for a zero word. -/
def BitScanForward (word : Nat) : Option Nat :=
  if word = 0 then none else some (lowestSetBitAux word word)

/-- C++ bitwise complement `~x` on an unsigned `w`-bit word. -/
def NotWord (w x : Nat) : Nat :=
  (2 ^ w - 1) ^^^ x

/-- State of a `BitSet<TElement, TToken>` instance: the field names follow
the source.  `TokenArray` is the owned storage buffer; the model keeps
exactly the `Tokens` words the operations may read (the physically larger
`malloc` block is never read beyond that). -/
structure BitSet where
  Tokens : Nat
  MaxElements : Nat
  LastTokenMask : Nat
  TokenArray : List Nat
deriving DecidableEq, Repr

/-- Loop building `LastTokenMask` in the constructor: starting from zero,
`SetBit` is applied at positions `0, 1, ..., offset - 1`. -/
def maskLoop : Nat → Nat
  | 0 => 0
  | n + 1 => SetBit (maskLoop n) n

/-- The constructor `BitSet(unsigned maxElements)`: `Tokens` is
`maxElements / ElementsPerToken`, incremented when the product does not
recover `maxElements`; `LastTokenMask` receives the low
`maxElements % ElementsPerToken` bits; storage is zeroed by `Clear()`. -/
def BitSet.init (w maxElements : Nat) : BitSet :=
  let t0 := maxElements / w
  let tokens := if t0 * w ≠ maxElements then t0 + 1 else t0
  { Tokens := tokens
    MaxElements := maxElements
    LastTokenMask := maskLoop (maxElements % w)
    TokenArray := ClearAllBits tokens }

/-- `Clear()`: `ClearAllBits(TokenArray, Tokens)`. -/
def BitSet.Clear (bs : BitSet) : BitSet :=
  { bs with TokenArray := ClearAllBits bs.Tokens }

/-- `CopyFrom(copyFrom)`: `memcpy` of `Tokens` words from the source
buffer into this instance's buffer; attributes are untouched. -/
def BitSet.CopyFrom (bs copyFrom : BitSet) : BitSet :=
  { bs with TokenArray := (List.range bs.Tokens).map fun i => copyFrom.TokenArray.getD i 0 }

/-- Copy assignment `operator=(const BitSet&)`: when the token counts
differ, the three attributes are copied and the buffer reallocated;
then `CopyFrom` copies the bits. -/
def BitSet.assign (dst src : BitSet) : BitSet :=
  let d :=
    if src.Tokens ≠ dst.Tokens then
      { dst with
          Tokens := src.Tokens
          LastTokenMask := src.LastTokenMask
          MaxElements := src.MaxElements }
    else dst
  d.CopyFrom src

/-- `Contains(element)`: tests bit `element % w` of word `element / w`. -/
def BitSet.Contains (w : Nat) (bs : BitSet) (element : Nat) : Bool :=
  TestBit (bs.TokenArray.getD (element / w) 0) (element % w)

/-- `Add(element)`: sets bit `element % w` of word `element / w`. -/
def BitSet.Add (w : Nat) (bs : BitSet) (element : Nat) : BitSet :=
  let token := element / w
  let offset := element % w
  { bs with TokenArray := bs.TokenArray.set token (SetBit (bs.TokenArray.getD token 0) offset) }

/-- `Remove(element)`: clears bit `element % w` of word `element / w`. -/
def BitSet.Remove (w : Nat) (bs : BitSet) (element : Nat) : BitSet :=
  let token := element / w
  let offset := element % w
  { bs with TokenArray := bs.TokenArray.set token (ClearBit (bs.TokenArray.getD token 0) offset) }

/-- `IsEmpty()`: scans the `Tokens` words and reports whether all are
zero. -/
def BitSet.IsEmpty (bs : BitSet) : Bool :=
  (List.range bs.Tokens).all fun s => bs.TokenArray.getD s 0 == 0

/-- `UnionWith(c)`: `OrVector(TokenArray, TokenArray, c.TokenArray, Tokens)`. -/
def BitSet.UnionWith (bs c : BitSet) : BitSet :=
  { bs with TokenArray := OrVector bs.TokenArray c.TokenArray bs.Tokens }

/-- `IntersectWith(c)`: `AndVector(TokenArray, TokenArray, c.TokenArray, Tokens)`. -/
def BitSet.IntersectWith (bs c : BitSet) : BitSet :=
  { bs with TokenArray := AndVector bs.TokenArray c.TokenArray bs.Tokens }

/-- `Complement()`: every one of the `Tokens` words is replaced by its
bitwise complement. -/
def BitSet.Complement (w : Nat) (bs : BitSet) : BitSet :=
  { bs with TokenArray := (List.range bs.Tokens).map fun s => NotWord w (bs.TokenArray.getD s 0) }

/-- Inner `while (BitScanForward(&idx, token))` loop of `ForEachMember`:
visits `idx + offset`, stops when the visitor returns `false`, and clears
the found bit on the local copy `token`.  Returns the visited elements
and whether enumeration should continue with the next word.  The first
argument is fuel; `token` itself is always enough, because every
iteration strictly decreases the local word and a zero word ends the
loop exactly as exhausted fuel does. -/
def scanWord (cb : Nat → Bool) (offset : Nat) : Nat → Nat → List Nat × Bool
  | 0, _ => ([], true)
  | fuel + 1, token =>
    match BitScanForward token with
    | none => ([], true)
    | some idx =>
      let st := idx + offset
      if cb st then
        let r := scanWord cb offset fuel (ClearBit token idx)
        (st :: r.1, r.2)
      else ([st], false)

/-- Outer word loop of `ForEachMember`: word `i` is read into a local
`token`, the last word is first masked with `LastTokenMask`, and the
element offset advances by `w` per word.  The first component returns
the storage words as the loop leaves them (the loop only ever reads
them). -/
def foreachLoop (w : Nat) (cb : Nat → Bool) (mask : Nat) : List Nat → Nat → List Nat × List Nat
  | [], _ => ([], [])
  | t :: rest, offset =>
    let token := if rest.isEmpty then t &&& mask else t
    let r := scanWord cb offset token token
    if r.2 then
      let r2 := foreachLoop w cb mask rest (offset + w)
      (t :: r2.1, r.1 ++ r2.2)
    else (t :: rest, r.1)

/-- `ForEachMember(cb)`: enumerates the members in ascending order,
masking the last word with `LastTokenMask`.  Returns the instance as the
enumeration leaves it together with the list of visited elements. -/
def BitSet.ForEachMember (w : Nat) (bs : BitSet) (cb : Nat → Bool) : BitSet × List Nat :=
  let r := foreachLoop w cb bs.LastTokenMask bs.TokenArray 0
  ({ bs with TokenArray := r.1 }, r.2)

/-- Well-formedness of a model state: the buffer holds exactly `Tokens`
words and every valid element maps to one of them. -/
def BitSet.WF (w : Nat) (bs : BitSet) : Prop :=
  bs.TokenArray.length = bs.Tokens ∧ bs.MaxElements ≤ bs.Tokens * w

instance (w : Nat) (bs : BitSet) : Decidable (bs.WF w) := by
  unfold BitSet.WF
  infer_instance

/-- Universe compatibility as the specification defines it: identical
word count, universe size and tail mask. -/
def Compatible (a b : BitSet) : Prop :=
  a.Tokens = b.Tokens ∧ a.MaxElements = b.MaxElements ∧ a.LastTokenMask = b.LastTokenMask

instance (a b : BitSet) : Decidable (Compatible a b) := by
  unfold Compatible
  infer_instance

/-- Ceiling division, the word count the specification prescribes. -/
def ceilDiv (m w : Nat) : Nat :=
  (m + w - 1) / w

/-- Invariant of claim C9: the word count is the ceiling of
`MaxElements / w`. -/
def Inv (w : Nat) (bs : BitSet) : Prop :=
  bs.Tokens = ceilDiv bs.MaxElements w

/- ### Helper lemmas -/

theorem getD_range_map (n i : Nat) (h : i < n) (f : Nat → Nat) :
    ((List.range n).map f).getD i 0 = f i := by
  have hl : i < ((List.range n).map f).length := by
    simpa using h
  rw [List.getD_eq_getElem?_getD, List.getElem?_eq_getElem hl]
  simp

theorem getD_set_self (l : List Nat) (i v : Nat) (h : i < l.length) :
    (l.set i v).getD i 0 = v := by
  rw [List.getD_eq_getElem?_getD, List.getElem?_set_self h]
  rfl

theorem getD_set_ne (l : List Nat) (i j v : Nat) (h : i ≠ j) :
    (l.set i v).getD j 0 = l.getD j 0 := by
  rw [List.getD_eq_getElem?_getD, List.getElem?_set_ne h, ← List.getD_eq_getElem?_getD]

theorem div_lt_tokens {w : Nat} (hw : 0 < w) {bs : BitSet} (hbs : bs.WF w) {e : Nat}
    (he : e < bs.MaxElements) : e / w < bs.Tokens :=
  (Nat.div_lt_iff_lt_mul hw).mpr (lt_of_lt_of_le he hbs.2)

theorem init_tokens_eq_ceilDiv (w : Nat) (hw : 0 < w) (m : Nat) :
    (BitSet.init w m).Tokens = ceilDiv m w := by
  have hqr := Nat.div_add_mod m w
  have hc : m / w * w = w * (m / w) := Nat.mul_comm _ _
  have hr : m % w < w := Nat.mod_lt _ hw
  have h1 : ceilDiv m w = m / w + (w - 1) / w + if w ≤ m % w + (w - 1) % w then 1 else 0 := by
    rw [ceilDiv, Nat.add_sub_assoc hw, Nat.add_div hw]
  simp only [BitSet.init]
  rw [h1, Nat.div_eq_of_lt (show w - 1 < w by omega), Nat.mod_eq_of_lt (show w - 1 < w by omega)]
  split <;> split <;> omega

theorem testBit_clearBit_setBit (t pos : Nat) :
    Nat.testBit (ClearBit (SetBit t pos) pos) pos = false := by
  have hv : Nat.testBit (SetBit t pos) pos = true := by
    simp [SetBit, Nat.testBit_lor, Nat.testBit_two_pow]
  simp [ClearBit, hv, Nat.testBit_xor, Nat.testBit_two_pow]

theorem getD_replicate_zero (n i : Nat) : (List.replicate n (0 : Nat)).getD i 0 = 0 := by
  rw [List.getD_eq_getElem?_getD, List.getElem?_replicate]
  split <;> rfl

theorem foreachLoop_fst (w : Nat) (cb : Nat → Bool) (mask : Nat) :
    ∀ (ts : List Nat) (offset : Nat), (foreachLoop w cb mask ts offset).1 = ts := by
  intro ts
  induction ts with
  | nil => intro offset; rfl
  | cons t rest ih =>
    intro offset
    simp only [foreachLoop]
    split <;> split <;> simp [ih]

/- ### Claims -/

/-- Claim C1 (code bug witnessed): with word width 8 and universe size 8
(an exact multiple of the word width), the set containing exactly the
member 3 is enumerated as the empty sequence by `ForEachMember`, because
`LastTokenMask` is zero and masks the last (only) word away, although
`Contains` confirms 3 is a member.  The claim requires the single member
3 to be visited. -/
theorem C1_foreachmember_misses_members_at_word_multiple :
    (((BitSet.init 8 8).Add 8 3).Contains 8 3 = true) ∧
    ((((BitSet.init 8 8).Add 8 3).ForEachMember 8 fun _ => true).2 = []) := by
  constructor <;> rfl

/-- Claim C2 (code bug witnessed): with word width 8 and universe size 8
(an exact multiple of the word width), the constructor computes a
`LastTokenMask` of zero, not the all-bits-set word `2 ^ 8 - 1` the claim
requires. -/
theorem C2_tailmask_zero_at_word_multiple :
    (BitSet.init 8 8).LastTokenMask = 0 ∧ (BitSet.init 8 8).LastTokenMask ≠ 2 ^ 8 - 1 := by
  constructor <;> decide

/-- Claim C3 (code bug witnessed): assigning a source with the same word
count but a different universe (destination universe 5, source universe
7, both one word of width 8) leaves the destination's `MaxElements` and
`LastTokenMask` unchanged, so not every attribute of the destination
equals the source's as the claim requires. -/
theorem C3_assign_keeps_stale_attributes :
    ((BitSet.init 8 5).assign (BitSet.init 8 7)).MaxElements = 5 ∧
    ((BitSet.init 8 5).assign (BitSet.init 8 7)).LastTokenMask = 31 ∧
    (BitSet.init 8 7).MaxElements = 7 ∧
    (BitSet.init 8 7).LastTokenMask = 127 := by
  refine ⟨rfl, by decide, rfl, by decide⟩

/-- Claim C7: for every word width and universe size, `IsEmpty` returns
`true` immediately after construction, and returns `true` immediately
after `Clear()` on any instance. -/
theorem C7_isempty_after_init_and_clear :
    ∀ (w m : Nat) (bs : BitSet),
      (BitSet.init w m).IsEmpty = true ∧ bs.Clear.IsEmpty = true := by
  intro w m bs
  constructor <;>
  · simp only [BitSet.IsEmpty, BitSet.init, BitSet.Clear, ClearAllBits, List.all_eq_true,
      List.mem_range]
    intro s _
    simp [getD_replicate_zero]

/-- Claim C8: `ForEachMember` never writes the live storage: for every
instance and every visitor, the instance component of the result is the
unchanged input instance, so membership of every element is identical
before and after enumeration. -/
theorem C8_foreachmember_preserves_storage :
    ∀ (w : Nat) (bs : BitSet) (cb : Nat → Bool), (bs.ForEachMember w cb).1 = bs := by
  intro w bs cb
  simp [BitSet.ForEachMember, foreachLoop_fst]

/-- Claim C4: applying `Complement` twice restores the original membership
of every valid element. -/
theorem C4_double_complement (w : Nat) (hw : 0 < w) (bs : BitSet) (hbs : bs.WF w)
    (e : Nat) (he : e < bs.MaxElements) :
    ((bs.Complement w).Complement w).Contains w e = bs.Contains w e := by
  have hidx : e / w < bs.Tokens := div_lt_tokens hw hbs he
  simp only [BitSet.Contains, BitSet.Complement, TestBit]
  rw [getD_range_map _ _ hidx, getD_range_map _ _ hidx]
  simp only [NotWord, Nat.xor_cancel_left]

/-- Witness for claim C4 at word width 8, universe size 5 and the set
containing 2. -/
theorem C4_witness :
    ((((BitSet.init 8 5).Add 8 2).Complement 8).Complement 8).Contains 8 2 =
      ((BitSet.init 8 5).Add 8 2).Contains 8 2 :=
  C4_double_complement 8 (by decide) ((BitSet.init 8 5).Add 8 2) (by decide) 2 (by decide)

/-- Claim C5: on universe-compatible sets, `UnionWith` is commutative,
associative and idempotent with respect to membership of every valid
element, and so is `IntersectWith`. -/
theorem C5_union_intersect_algebra (w : Nat) (hw : 0 < w) (A B C : BitSet)
    (hA : A.WF w) (hAB : Compatible A B) (hAC : Compatible A C) (e : Nat)
    (he : e < A.MaxElements) :
    ((A.UnionWith B).Contains w e = (B.UnionWith A).Contains w e) ∧
    (((A.UnionWith B).UnionWith C).Contains w e
      = (A.UnionWith (B.UnionWith C)).Contains w e) ∧
    ((A.UnionWith A).Contains w e = A.Contains w e) ∧
    ((A.IntersectWith B).Contains w e = (B.IntersectWith A).Contains w e) ∧
    (((A.IntersectWith B).IntersectWith C).Contains w e
      = (A.IntersectWith (B.IntersectWith C)).Contains w e) ∧
    ((A.IntersectWith A).Contains w e = A.Contains w e) := by
  obtain ⟨hTB, _, _⟩ := hAB
  obtain ⟨hTC, _, _⟩ := hAC
  have hidx : e / w < A.Tokens := div_lt_tokens hw hA he
  have hidxB : e / w < B.Tokens := hTB ▸ hidx
  refine ⟨?_, ?_, ?_, ?_, ?_, ?_⟩
  · simp only [BitSet.Contains, BitSet.UnionWith, OrVector, TestBit,
      getD_range_map _ _ hidx, getD_range_map _ _ hidxB, Nat.testBit_lor]
    exact Bool.or_comm _ _
  · simp only [BitSet.Contains, BitSet.UnionWith, OrVector, TestBit,
      getD_range_map _ _ hidx, getD_range_map _ _ hidxB, Nat.testBit_lor]
    exact Bool.or_assoc _ _ _
  · simp only [BitSet.Contains, BitSet.UnionWith, OrVector, TestBit,
      getD_range_map _ _ hidx, Nat.testBit_lor]
    exact Bool.or_self _
  · simp only [BitSet.Contains, BitSet.IntersectWith, AndVector, TestBit,
      getD_range_map _ _ hidx, getD_range_map _ _ hidxB, Nat.testBit_land]
    exact Bool.and_comm _ _
  · simp only [BitSet.Contains, BitSet.IntersectWith, AndVector, TestBit,
      getD_range_map _ _ hidx, getD_range_map _ _ hidxB, Nat.testBit_land]
    exact Bool.and_assoc _ _ _
  · simp only [BitSet.Contains, BitSet.IntersectWith, AndVector, TestBit,
      getD_range_map _ _ hidx, Nat.testBit_land]
    exact Bool.and_self _

/-- Witness for claim C5 at word width 8 over universe size 5, with the
sets containing 1, containing 3, and empty, tested at element 1. -/
theorem C5_witness :
    ((((BitSet.init 8 5).Add 8 1).UnionWith ((BitSet.init 8 5).Add 8 3)).Contains 8 1
      = ((((BitSet.init 8 5).Add 8 3)).UnionWith ((BitSet.init 8 5).Add 8 1)).Contains 8 1) ∧
    (((((BitSet.init 8 5).Add 8 1).UnionWith ((BitSet.init 8 5).Add 8 3)).UnionWith
        (BitSet.init 8 5)).Contains 8 1
      = (((BitSet.init 8 5).Add 8 1).UnionWith
          (((BitSet.init 8 5).Add 8 3).UnionWith (BitSet.init 8 5))).Contains 8 1) ∧
    ((((BitSet.init 8 5).Add 8 1).UnionWith ((BitSet.init 8 5).Add 8 1)).Contains 8 1
      = ((BitSet.init 8 5).Add 8 1).Contains 8 1) ∧
    ((((BitSet.init 8 5).Add 8 1).IntersectWith ((BitSet.init 8 5).Add 8 3)).Contains 8 1
      = ((((BitSet.init 8 5).Add 8 3)).IntersectWith ((BitSet.init 8 5).Add 8 1)).Contains 8 1) ∧
    (((((BitSet.init 8 5).Add 8 1).IntersectWith ((BitSet.init 8 5).Add 8 3)).IntersectWith
        (BitSet.init 8 5)).Contains 8 1
      = (((BitSet.init 8 5).Add 8 1).IntersectWith
          (((BitSet.init 8 5).Add 8 3).IntersectWith (BitSet.init 8 5))).Contains 8 1) ∧
    ((((BitSet.init 8 5).Add 8 1).IntersectWith ((BitSet.init 8 5).Add 8 1)).Contains 8 1
      = ((BitSet.init 8 5).Add 8 1).Contains 8 1) :=
  C5_union_intersect_algebra 8 (by decide) ((BitSet.init 8 5).Add 8 1)
    ((BitSet.init 8 5).Add 8 3) (BitSet.init 8 5) (by decide) (by decide) (by decide)
    1 (by decide)

/-- Claim C6: for every valid element, `Contains` is `true` right after
`Add` and `false` right after a subsequent `Remove`. -/
theorem C6_add_remove_contains (w : Nat) (hw : 0 < w) (bs : BitSet) (hbs : bs.WF w)
    (e : Nat) (he : e < bs.MaxElements) :
    (bs.Add w e).Contains w e = true ∧
    ((bs.Add w e).Remove w e).Contains w e = false := by
  have hidx : e / w < bs.TokenArray.length := by
    rw [hbs.1]
    exact div_lt_tokens hw hbs he
  constructor
  · simp only [BitSet.Contains, BitSet.Add, TestBit]
    rw [getD_set_self _ _ _ hidx]
    simp [SetBit, Nat.testBit_lor, Nat.testBit_two_pow]
  · have hidx2 : e / w <
        (bs.TokenArray.set (e / w) (SetBit (bs.TokenArray.getD (e / w) 0) (e % w))).length := by
      simpa using hidx
    simp only [BitSet.Contains, BitSet.Remove, BitSet.Add, TestBit]
    rw [getD_set_self _ _ _ hidx2, getD_set_self _ _ _ hidx]
    exact testBit_clearBit_setBit _ _

/-- Witness for claim C6 at word width 8, universe size 5, element 2. -/
theorem C6_witness :
    ((BitSet.init 8 5).Add 8 2).Contains 8 2 = true ∧
    (((BitSet.init 8 5).Add 8 2).Remove 8 2).Contains 8 2 = false :=
  C6_add_remove_contains 8 (by decide) (BitSet.init 8 5) (by decide) 2 (by decide)

/-- Claim C9: the word count equals the ceiling of `MaxElements / w` at
construction, and every operation preserves that relationship. -/
theorem C9_wordcount_invariant (w : Nat) (hw : 0 < w) :
    (∀ m, Inv w (BitSet.init w m)) ∧
    (∀ bs e, Inv w bs → Inv w (bs.Add w e)) ∧
    (∀ bs e, Inv w bs → Inv w (bs.Remove w e)) ∧
    (∀ bs, Inv w bs → Inv w bs.Clear) ∧
    (∀ bs c, Inv w bs → Inv w (bs.UnionWith c)) ∧
    (∀ bs c, Inv w bs → Inv w (bs.IntersectWith c)) ∧
    (∀ bs, Inv w bs → Inv w (bs.Complement w)) ∧
    (∀ bs c, Inv w bs → Inv w (bs.CopyFrom c)) ∧
    (∀ bs cb, Inv w bs → Inv w (bs.ForEachMember w cb).1) ∧
    (∀ dst src, Inv w dst → Inv w src → Inv w (dst.assign src)) := by
  refine ⟨fun m => init_tokens_eq_ceilDiv w hw m, ?_, ?_, ?_, ?_, ?_, ?_, ?_, ?_, ?_⟩
  · intro bs e h; exact h
  · intro bs e h; exact h
  · intro bs h; exact h
  · intro bs c h; exact h
  · intro bs c h; exact h
  · intro bs h; exact h
  · intro bs c h; exact h
  · intro bs cb h; exact h
  · intro dst src hd hs
    by_cases hc : src.Tokens ≠ dst.Tokens
    · simp only [Inv, BitSet.assign, BitSet.CopyFrom, if_pos hc]
      exact hs
    · simp only [Inv, BitSet.assign, BitSet.CopyFrom, if_neg hc]
      exact hd

/-- Witness for claim C9 at word width 8: construction at universe size 5
and a subsequent `Add` keep the word count at the ceiling. -/
theorem C9_witness :
    Inv 8 (BitSet.init 8 5) ∧ Inv 8 ((BitSet.init 8 5).Add 8 3) := by
  have h := C9_wordcount_invariant 8 (by decide)
  exact ⟨h.1 5, h.2.1 (BitSet.init 8 5) 3 (h.1 5)⟩

/-- Claim C10: `Add` and `Remove` on an element never change membership of
any other valid element. -/
theorem C10_single_element_frame (w : Nat) (hw : 0 < w) (bs : BitSet) (e f : Nat)
    (hef : e ≠ f) (he : e < bs.MaxElements) (hf : f < bs.MaxElements) :
    (bs.Add w e).Contains w f = bs.Contains w f ∧
    (bs.Remove w e).Contains w f = bs.Contains w f := by
  by_cases hq : e / w = f / w
  · have hoff : e % w ≠ f % w := by
      intro h
      apply hef
      have h1 := Nat.div_add_mod e w
      have h2 := Nat.div_add_mod f w
      rw [← h1, ← h2, hq, h]
    rcases Nat.lt_or_ge (e / w) bs.TokenArray.length with hlen | hlen
    · constructor
      · simp only [BitSet.Contains, BitSet.Add, TestBit, ← hq]
        rw [getD_set_self _ _ _ hlen]
        simp [SetBit, Nat.testBit_lor, Nat.testBit_two_pow, hoff]
      · simp only [BitSet.Contains, BitSet.Remove, TestBit, ← hq]
        rw [getD_set_self _ _ _ hlen]
        simp only [ClearBit]
        split
        · simp [Nat.testBit_xor, Nat.testBit_two_pow, hoff]
        · rfl
    · constructor
      · simp only [BitSet.Contains, BitSet.Add, TestBit, List.set_eq_of_length_le hlen]
      · simp only [BitSet.Contains, BitSet.Remove, TestBit, List.set_eq_of_length_le hlen]
  · constructor
    · simp only [BitSet.Contains, BitSet.Add, TestBit]
      rw [getD_set_ne _ _ _ _ hq]
    · simp only [BitSet.Contains, BitSet.Remove, TestBit]
      rw [getD_set_ne _ _ _ _ hq]

/-- Witness for claim C10 at word width 8, universe size 5, elements 2
and 3. -/
theorem C10_witness :
    ((BitSet.init 8 5).Add 8 2).Contains 8 3 = (BitSet.init 8 5).Contains 8 3 ∧
    ((BitSet.init 8 5).Remove 8 2).Contains 8 3 = (BitSet.init 8 5).Contains 8 3 :=
  C10_single_element_frame 8 (by decide) (BitSet.init 8 5) 2 3 (by decide) (by decide)
    (by decide)

end FastHopcroft
